import Mathlib

/-!
# Verification of the claude-code-validator core

A shallow embedding, in Lean 4, of the validation engine of the
`claude-code-validator` repository: the context builder (`parseInput`), the
error renderer (`formatErrors`), the validation engine (`registerRule` /
`validate` over the lifecycle hook bus), rule discovery (`loadRules` /
`isValidationRule`), and the project-root search (`findProjectRoot`).

Modelling conventions:
* JavaScript strings are `String`; optional payload fields are `Option String`.
* The JS expression `x || y` on a string-typed optional `x` is `jsOrS`:
  `undefined` and the empty string (both falsy) fall through to `y`.
* Exceptions are modelled with `Except Err`; `Err` is an opaque-to-the-model
  payload type (the engine never inspects a thrown value).
* `for … of` loops with accumulation are modelled as structural recursion over
  the list being traversed, threading the accumulator.
-/

/-- Exception payload. The code never inspects a caught value, so a single
abstract carrier with at least two distinct inhabitants suffices. -/
structure Err where
  msg : String
deriving Repr, DecidableEq

/-- JS `x || y` where `x : string | undefined`: `undefined` and `""` are falsy
and fall through to `y`; any other string is truthy and is returned. -/
def jsOrS : Option String → String → String
  | some s, d => if s = "" then d else s
  | none, d => d

/-- The `operation` discriminator of a `ValidationContext`
(`'edit' | 'write'` in `src/types.ts`). -/
inductive Operation where
  | edit
  | write
deriving Repr, DecidableEq

/-- `ValidationContext` from `src/types.ts`: `toolName`, `filePath`, `content`
are strings; `oldContent` is the optional (`oldContent?: string`) field;
`operation` is the edit/write discriminator. -/
structure ValidationContext where
  toolName : String
  filePath : String
  content : String
  oldContent : Option String
  operation : Operation
deriving Repr, DecidableEq

/-- The `tool_input` payload of `ClaudeCodeHookInput` from `src/types.ts`:
all four recognised fields are optional strings. -/
structure ToolInput where
  file_path : Option String := none
  content : Option String := none
  new_string : Option String := none
  old_string : Option String := none
deriving Repr, DecidableEq

/-- `ClaudeCodeHookInput` from `src/types.ts`. -/
structure ClaudeCodeHookInput where
  tool_name : String
  tool_input : ToolInput
deriving Repr, DecidableEq

/-- `parseInput` from `src/core/validator.ts`: builds the `ValidationContext`
from a hook input.  `content` is `toolInput.content || toolInput.new_string
|| ''`; `oldContent` is `toolInput.old_string || ''` (always assigned);
`operation` is `'edit'` exactly when `tool_name === 'Edit'`. -/
def parseInput (input : ClaudeCodeHookInput) : ValidationContext :=
  { toolName := input.tool_name
    filePath := jsOrS input.tool_input.file_path ""
    content := jsOrS input.tool_input.content (jsOrS input.tool_input.new_string "")
    oldContent := some (jsOrS input.tool_input.old_string "")
    operation := if input.tool_name = "Edit" then Operation.edit else Operation.write }

/-- JS `Array.prototype.join(sep)`. -/
def joinSep (sep : String) : List String → String
  | [] => ""
  | [e] => e
  | e :: rest => e ++ sep ++ joinSep sep rest

/-- The header string of the error renderer in `validate`
(`src/core/validator.ts`). -/
def validationHeader : String := "\n⚠️  VALIDATION ERRORS:\n\n"

/-- The `formatErrors` closure returned by `validate`
(`src/core/validator.ts`): empty aggregate renders to `""`; otherwise the
header followed by the diagnostics joined with a blank line
(`errors.map(e => ` the identity template `).join('\n\n')`). -/
def formatErrors (errors : List String) : String :=
  if errors.length = 0 then ""
  else validationHeader ++ joinSep "\n\n" (errors.map (fun e => e))

example : parseInput
    { tool_name := "Write",
      tool_input := { file_path := some "x.ts", content := some "c" } } =
    { toolName := "Write", filePath := "x.ts", content := "c",
      oldContent := some "", operation := Operation.write } := by decide

example : formatErrors [] = "" := by decide

example : formatErrors ["a", "b"] = validationHeader ++ "a" ++ "\n\n" ++ "b" := by
  decide

/-! ## The validation engine (`src/core/validator.ts`)

The engine's rules are `ValidationRule` values whose `shouldRun` and
`validate` members are functions of the context.  The pure model below is the
engine when rules do not throw; the `Except`-based model further down carries
exception propagation for the failure-semantics claims. -/

/-- `ValidationRule` from `src/types.ts`, with total (non-throwing) member
functions.  `validate` produces the diagnostic sequence. -/
structure VRule where
  name : String
  description : String
  shouldRun : ValidationContext → Bool
  validate : ValidationContext → List String

/-- Modelled from the spec: the lifecycle hook bus (the external `hookable`
package's `createHooks`, not part of this repository) — a named-event
dispatcher holding, per event name, the handlers in registration order. -/
structure HookBus where
  hooks : List (String × (ValidationContext → List String))

/-- The empty bus (`createHooks()`). -/
def HookBus.empty : HookBus := ⟨[]⟩

/-- `hooks.hook(name, handler)`: append a handler for an event name. -/
def HookBus.hook (bus : HookBus) (name : String)
    (handler : ValidationContext → List String) : HookBus :=
  ⟨bus.hooks ++ [(name, handler)]⟩

/-- The handlers registered for an event name, in registration order. -/
def HookBus.handlersFor (bus : HookBus) (name : String) :
    List (ValidationContext → List String) :=
  bus.hooks.filterMap (fun p => if p.1 = name then some p.2 else none)

/-- Modelled from the spec: firing an event channel invokes every handler
registered for the name, sequentially in registration order, each awaited
before the next; the list collects each handler's resolved value in firing
order. -/
def HookBus.fireAll (bus : HookBus) (name : String) (ctx : ValidationContext) :
    List (List String) :=
  (bus.handlersFor name).map (fun h => h ctx)

/-- Modelled from the spec: `hooks.callHook(name, ctx)` — the serial caller
chains the handlers and resolves to the LAST handler's value, or to
`undefined` (`none`) when no handler is registered. -/
def HookBus.callHook (bus : HookBus) (name : String) (ctx : ValidationContext) :
    Option (List String) :=
  (bus.fireAll name ctx).getLast?

/-- The engine state built by `createValidator()`: the owned ordered rule
list and the hook bus. -/
structure Validator where
  rules : List VRule
  bus : HookBus

/-- `createValidator()`: fresh engine with no rules and an empty bus. -/
def Validator.empty : Validator := ⟨[], HookBus.empty⟩

/-- `registerRule(rule)` from `src/core/validator.ts`: push the rule onto the
owned list and bind a `validate:<rule.name>` channel handler delegating to
`rule.validate`. -/
def registerRule (v : Validator) (r : VRule) : Validator :=
  ⟨v.rules ++ [r], v.bus.hook ("validate:" ++ r.name) r.validate⟩

/-- An engine on which the given rules have been registered in order. -/
def mkValidator (rules : List VRule) : Validator :=
  rules.foldl registerRule Validator.empty

/-- `ValidationResult` from `src/types.ts` (the `formatErrors` member is the
closure `formatErrors` applied to the `errors` field). -/
structure ValidationResult where
  valid : Bool
  errors : List String
deriving Repr, DecidableEq

/-- The rule loop of `validate` (`src/core/validator.ts`, the `for (const
rule of rules)` body): skip a rule whose `shouldRun` is false; otherwise fire
the rule's channel and, when the resolved value is a non-empty sequence,
append all its entries to the running aggregate. -/
def runRules (bus : HookBus) (ctx : ValidationContext) :
    List VRule → List String → List String
  | [], errs => errs
  | r :: rest, errs =>
    if r.shouldRun ctx then
      match bus.callHook ("validate:" ++ r.name) ctx with
      | some res =>
        if 0 < res.length then runRules bus ctx rest (errs ++ res)
        else runRules bus ctx rest errs
      | none => runRules bus ctx rest errs
    else runRules bus ctx rest errs

/-- `validate` from `src/core/validator.ts` on an already-built context:
fire `validate:before`, run the rule loop, fire `validate:after`, and return
the result with `valid = (errors.length === 0)`.  In this pure model the
before/after channels have no registered handlers to affect the aggregate;
their firing is kept for structural fidelity. -/
def validateCtx (v : Validator) (ctx : ValidationContext) : ValidationResult :=
  let _before := v.bus.callHook "validate:before" ctx
  let errors := runRules v.bus ctx v.rules []
  let _after := v.bus.callHook "validate:after" ctx
  { valid := errors.length = 0, errors := errors }

/-- `validate` on raw hook input: parse, then validate the built context. -/
def validate (v : Validator) (input : ClaudeCodeHookInput) : ValidationResult :=
  validateCtx v (parseInput input)

/-! ## The engine with throwing rules

The same engine, with `shouldRun` and `validate` allowed to throw
(`Except Err`).  `validate` in `src/core/validator.ts` contains no
try/catch, so every rejection propagates. -/

/-- `ValidationRule` whose member functions may throw. -/
structure VRuleE where
  name : String
  description : String
  shouldRun : ValidationContext → Except Err Bool
  validate : ValidationContext → Except Err (List String)

/-- Hook bus over throwing handlers. -/
structure HookBusE where
  hooks : List (String × (ValidationContext → Except Err (List String)))

/-- The handlers registered for an event name, in registration order. -/
def HookBusE.handlersFor (bus : HookBusE) (name : String) :
    List (ValidationContext → Except Err (List String)) :=
  bus.hooks.filterMap (fun p => if p.1 = name then some p.2 else none)

/-- Modelled from the spec: the serial hook caller over throwing handlers —
each handler is awaited in turn; a rejection anywhere aborts the chain and
propagates; otherwise the chain resolves to the last handler's value
(`none` when no handler is registered). -/
def serialCallE (handlers : List (ValidationContext → Except Err (List String)))
    (ctx : ValidationContext) : Except Err (Option (List String)) :=
  match handlers with
  | [] => Except.ok none
  | h :: rest =>
    match h ctx with
    | Except.error e => Except.error e
    | Except.ok res =>
      match serialCallE rest ctx with
      | Except.error e => Except.error e
      | Except.ok none => Except.ok (some res)
      | Except.ok (some res₂) => Except.ok (some res₂)

/-- `hooks.callHook` over throwing handlers. -/
def HookBusE.callHook (bus : HookBusE) (name : String) (ctx : ValidationContext) :
    Except Err (Option (List String)) :=
  serialCallE (bus.handlersFor name) ctx

/-- Engine state over throwing rules. -/
structure ValidatorE where
  rules : List VRuleE
  bus : HookBusE

/-- `registerRule` over throwing rules. -/
def registerRuleE (v : ValidatorE) (r : VRuleE) : ValidatorE :=
  ⟨v.rules ++ [r], ⟨v.bus.hooks ++ [("validate:" ++ r.name, r.validate)]⟩⟩

/-- An engine on which the given throwing rules have been registered in
order. -/
def mkValidatorE (rules : List VRuleE) : ValidatorE :=
  rules.foldl registerRuleE ⟨[], ⟨[]⟩⟩

/-- The rule loop of `validate` with throwing rules: no try/catch anywhere,
so an exception from `shouldRun` or from the fired channel aborts the loop
and propagates. -/
def runRulesE (bus : HookBusE) (ctx : ValidationContext) :
    List VRuleE → List String → Except Err (List String)
  | [], errs => Except.ok errs
  | r :: rest, errs =>
    match r.shouldRun ctx with
    | Except.error e => Except.error e
    | Except.ok b =>
      if b then
        match bus.callHook ("validate:" ++ r.name) ctx with
        | Except.error e => Except.error e
        | Except.ok (some res) =>
          if 0 < res.length then runRulesE bus ctx rest (errs ++ res)
          else runRulesE bus ctx rest errs
        | Except.ok none => runRulesE bus ctx rest errs
      else runRulesE bus ctx rest errs

/-- `validate` over throwing rules, with the source's full awaited
sequence: fire `validate:before`, run the rule loop, fire
`validate:after`, then build the result.  Each fire is awaited and
uncaught, so a rejection at any of the three stages propagates to the
caller and no `ValidationResult` is produced.  (A rule named `"before"` or
`"after"` binds its handler on those very channels via `registerRule`, so
the before/after fires can themselves reject.) -/
def validateE (v : ValidatorE) (ctx : ValidationContext) :
    Except Err ValidationResult :=
  match v.bus.callHook "validate:before" ctx with
  | Except.error e => Except.error e
  | Except.ok _ =>
    match runRulesE v.bus ctx v.rules [] with
    | Except.error e => Except.error e
    | Except.ok errors =>
      match v.bus.callHook "validate:after" ctx with
      | Except.error e => Except.error e
      | Except.ok _ =>
        Except.ok { valid := errors.length = 0, errors := errors }

/-! ## Rule discovery (`src/utils/rule-loader.ts`)

Discovery inspects arbitrary exported JavaScript values, so the structural
check is modelled over a small JS value universe carrying `typeof`,
truthiness and property access. -/

/-- A JavaScript runtime value, as far as `isValidationRule` can observe it:
`undefined`, `null`, booleans, numbers, strings, (opaque) functions, and
plain objects as field lists. -/
inductive JsVal where
  | undef : JsVal
  | nullV : JsVal
  | boolV : Bool → JsVal
  | numV : Int → JsVal
  | strV : String → JsVal
  | funV : Nat → JsVal
  | objV : List (String × JsVal) → JsVal

/-- JS `typeof`. Note `typeof null === 'object'`. -/
def jsTypeof : JsVal → String
  | JsVal.undef => "undefined"
  | JsVal.nullV => "object"
  | JsVal.boolV _ => "boolean"
  | JsVal.numV _ => "number"
  | JsVal.strV _ => "string"
  | JsVal.funV _ => "function"
  | JsVal.objV _ => "object"

/-- JS truthiness: `undefined`, `null`, `false`, `0` and `""` are falsy;
objects and functions are always truthy. -/
def jsTruthy : JsVal → Bool
  | JsVal.undef => false
  | JsVal.nullV => false
  | JsVal.boolV b => b
  | JsVal.numV n => n ≠ 0
  | JsVal.strV s => s ≠ ""
  | JsVal.funV _ => true
  | JsVal.objV _ => true

/-- JS property access `v.k` on a plain object: the first binding for the
key, else `undefined`. -/
def jsGet (v : JsVal) (k : String) : JsVal :=
  match v with
  | JsVal.objV fields =>
    match fields.find? (fun p => p.1 = k) with
    | some p => p.2
    | none => JsVal.undef
  | _ => JsVal.undef

/-- `isValidationRule` from `src/utils/rule-loader.ts`: `obj && typeof obj
=== 'object' && typeof obj.name === 'string' && typeof obj.description ===
'string' && typeof obj.shouldRun === 'function' && typeof obj.validate ===
'function'`. -/
def isValidationRule (obj : JsVal) : Bool :=
  jsTruthy obj &&
  jsTypeof obj = "object" &&
  jsTypeof (jsGet obj "name") = "string" &&
  jsTypeof (jsGet obj "description") = "string" &&
  jsTypeof (jsGet obj "shouldRun") = "function" &&
  jsTypeof (jsGet obj "validate") = "function"

/-- Suffix test on strings, over their character lists. -/
def strEndsWith (s suffix : String) : Bool :=
  List.isSuffixOf suffix.data s.data

/-- Segment test on strings, over their character lists: does `seg` occur
anywhere in `s`? -/
def strHasSeg (seg s : String) : Bool :=
  (List.range (s.data.length + 1)).any
    (fun i => List.isPrefixOf seg.data (s.data.drop i))

/-- Candidate selection of the `glob` call in `loadRules`: pattern
`**/*.{ts,js}` with ignore patterns `**/*.test.ts`, `**/*.spec.ts` and
`**/node_modules/**`.  Modelled from the spec: the `glob` package is not part
of this repository; "enumerate all candidate rule source files recursively,
excluding test/spec files and dependency-manager directories". -/
def isCandidateFile (f : String) : Bool :=
  (strEndsWith f ".ts" || strEndsWith f ".js") &&
  !(strEndsWith f ".test.ts") &&
  !(strEndsWith f ".spec.ts") &&
  !(strHasSeg "/node_modules/" f)

/-- One candidate file as discovery sees it: loading it either throws or
yields a module, i.e. the list of its exported values
(`Object.values(module)`). -/
abbrev ModuleLoad := Except Err (List JsVal)

/-- A rules directory as discovery sees it: enumeration either throws
(e.g. directory missing) or yields the candidate files in enumeration
order. -/
abbrev DirListing := Except Err (List ModuleLoad)

/-- The inner export loop of `loadRules`: push every exported value passing
the structural check, in export order. -/
def collectExports (acc : List JsVal) (exports : List JsVal) : List JsVal :=
  exports.foldl (fun acc e => if isValidationRule e then acc ++ [e] else acc) acc

/-- The file loop of `loadRules`, with the inner try/catch: a file whose
load throws is warned about (`console.warn`, modelled as the second
component) and skipped; a loaded file contributes its passing exports. -/
def loadFiles (acc : List JsVal) (warns : List Err) :
    List ModuleLoad → List JsVal × List Err
  | [] => (acc, warns)
  | Except.error e :: rest => loadFiles acc (warns ++ [e]) rest
  | Except.ok exports :: rest => loadFiles (collectExports acc exports) warns rest

/-- The body of `loadRules` inside the outer `try`: enumerate, then run the
file loop. -/
def loadRulesBody (dir : DirListing) : Except Err (List JsVal × List Err) :=
  match dir with
  | Except.error e => Except.error e
  | Except.ok files => Except.ok (loadFiles [] [] files)

/-- `loadRules` from `src/utils/rule-loader.ts`: the outer catch turns an
enumeration failure into the empty rule list; nothing escapes. -/
def loadRules (dir : DirListing) : List JsVal :=
  match loadRulesBody dir with
  | Except.ok (rules, _) => rules
  | Except.error _ => []

/-! ## Project-root search (`findProjectRoot` in the rule loader) -/

/-- An absolute directory path as its component list (`[]` is the
filesystem root `'/'`); `dirname` drops the last component. -/
abbrev DirPath := List String

/-- `findProjectRoot` from the rule loader: starting from the resolved
start directory, walk upward while the current directory is not `'/'`;
return the first directory containing a `.claude` entry, else `null`.
`hasClaude d` is `existsSync(join(d, '.claude'))`. -/
def findProjectRoot (hasClaude : DirPath → Bool) (d : DirPath) :
    Option DirPath :=
  if _h : d = [] then none
  else if hasClaude d then some d
  else findProjectRoot hasClaude d.dropLast
termination_by d.length
decreasing_by
  simp only [List.length_dropLast]
  exact Nat.sub_lt (List.length_pos.mpr _h) Nat.one_pos

/-- Unfolding equation for `findProjectRoot` (defined by well-founded
recursion on the path length). -/
theorem findProjectRoot_eq (hasClaude : DirPath → Bool) (d : DirPath) :
    findProjectRoot hasClaude d =
      if d = [] then none
      else if hasClaude d then some d
      else findProjectRoot hasClaude d.dropLast := by
  rw [findProjectRoot]
  by_cases h1 : d = [] <;> simp [h1]

example :
    findProjectRoot (fun p => decide (p = ["home", "u"])) ["home", "u", "proj"] =
      some ["home", "u"] := by
  simp +decide [findProjectRoot_eq]

example : findProjectRoot (fun p => decide (p = [])) ["home", "u"] = none := by
  simp +decide [findProjectRoot_eq]

/-! ## Claim about the project-root search -/

/-- C10: `findProjectRoot` returns either `null` or the nearest
ancestor-or-self of the start directory containing a `.claude` entry (the
returned path is `d.take k` for the largest such depth `k ≥ 1`, and every
strictly deeper examined directory lacks `.claude`); the filesystem root
(`take 0`, i.e. `[]`) is never examined, so when only the root contains
`.claude` the search returns `null`. -/
theorem findProjectRoot_spec (hasClaude : DirPath → Bool) (d : DirPath) :
    (findProjectRoot hasClaude d = none ∨
      ∃ k, 0 < k ∧ k ≤ d.length ∧
        findProjectRoot hasClaude d = some (d.take k) ∧
        hasClaude (d.take k) = true ∧
        ∀ j, k < j → j ≤ d.length → hasClaude (d.take j) = false) ∧
    ((∀ p, p ≠ [] → hasClaude p = false) → findProjectRoot hasClaude d = none) := by
  induction d using findProjectRoot.induct hasClaude with
  | case1 =>
    constructor
    · left
      rw [findProjectRoot]
      simp
    · intro _
      rw [findProjectRoot]
      simp
  | case2 d hd hc =>
    constructor
    · right
      refine ⟨d.length, List.length_pos.mpr hd, le_refl _, ?_, ?_, ?_⟩
      · rw [findProjectRoot]
        simp [hd, hc, List.take_length]
      · simpa [List.take_length] using hc
      · intro j hj hj2
        omega
    · intro hall
      exact absurd hc (by simp [hall d hd])
  | case3 d hd hc ih =>
    have hcf : hasClaude d = false := Bool.eq_false_iff.mpr hc
    have heq : findProjectRoot hasClaude d = findProjectRoot hasClaude d.dropLast := by
      rw [findProjectRoot]
      simp [hd, hcf]
    have hpos : 0 < d.length := List.length_pos.mpr hd
    constructor
    · rcases ih.1 with hnone | ⟨k, hk0, hkle, heq2, htrue, hfalse⟩
      · left
        rw [heq, hnone]
      · have hkle1 : k ≤ d.length - 1 := by
          simpa [List.length_dropLast] using hkle
        have htake : d.dropLast.take k = d.take k := by
          rw [List.dropLast_eq_take, List.take_take, Nat.min_eq_left hkle1]
        right
        refine ⟨k, hk0, by omega, ?_, ?_, ?_⟩
        · rw [heq, heq2, htake]
        · rw [htake] at htrue
          exact htrue
        · intro j hj hj2
          by_cases hjle : j ≤ d.length - 1
          · have hjtake : d.dropLast.take j = d.take j := by
              rw [List.dropLast_eq_take, List.take_take, Nat.min_eq_left hjle]
            have := hfalse j hj (by simp [List.length_dropLast]; omega)
            rw [hjtake] at this
            exact this
          · have hjeq : j = d.length := by omega
            subst hjeq
            simpa [List.take_length] using hcf
    · intro hall
      rw [heq]
      exact ih.2 hall

/-- Witness for C10: with `.claude` present only at the filesystem root, the
search from a two-component start directory returns `null`. -/
theorem findProjectRoot_spec_witness :
    findProjectRoot (fun p => decide (p = [])) ["home", "u"] = none :=
  (findProjectRoot_spec (fun p => decide (p = [])) ["home", "u"]).2
    (fun _ hp => decide_eq_false hp)

/-! ## Claims about the context builder -/

/-- The input refuting C6 as stated: a payload whose "new content" field is
present but empty alongside a non-empty "replacement text" field. -/
def cexInputContent : ClaudeCodeHookInput :=
  { tool_name := "Edit",
    tool_input := { content := some "", new_string := some "x" } }

/-- C6 counterexample: on a payload with `content` present (the empty
string) and `new_string = "x"`, the built context's `content` is `"x"`, not
the present `content` field's value — the JS `||` chain skips a present but
falsy field, so "when the new content field is present its value is taken
regardless of the replacement text field" fails. -/
theorem parseInput_content_present_not_taken :
    cexInputContent.tool_input.content = some "" ∧
    (parseInput cexInputContent).content = "x" ∧
    ("x" : String) ≠ "" := by
  refine ⟨rfl, rfl, by decide⟩

/-- C6 (amended): the built context's `content` equals the payload's
"new content" field when that field is present AND non-empty (JS-truthy);
otherwise the "replacement text" field when present and non-empty; otherwise
the empty string. -/
theorem parseInput_content_amended (input : ClaudeCodeHookInput) :
    (∀ s, input.tool_input.content = some s → s ≠ "" →
      (parseInput input).content = s) ∧
    ((input.tool_input.content = none ∨ input.tool_input.content = some "") →
      ∀ s, input.tool_input.new_string = some s → s ≠ "" →
        (parseInput input).content = s) ∧
    ((input.tool_input.content = none ∨ input.tool_input.content = some "") →
      (input.tool_input.new_string = none ∨ input.tool_input.new_string = some "") →
      (parseInput input).content = "") := by
  refine ⟨?_, ?_, ?_⟩
  · intro s hs hne
    simp [parseInput, jsOrS, hs, hne]
  · intro hc s hs hne
    rcases hc with hc | hc <;> simp [parseInput, jsOrS, hc, hs, hne]
  · intro hc hn
    rcases hc with hc | hc <;> rcases hn with hn | hn <;>
      simp [parseInput, jsOrS, hc, hn]

/-- Witness for the amended C6 at concrete inputs. -/
theorem parseInput_content_amended_witness :
    (parseInput { tool_name := "Write", tool_input := { content := some "body" } }).content = "body" ∧
    (parseInput { tool_name := "Edit", tool_input := { new_string := some "n" } }).content = "n" ∧
    (parseInput { tool_name := "Write", tool_input := {} }).content = "" :=
  ⟨(parseInput_content_amended _).1 "body" rfl (by decide),
   (parseInput_content_amended _).2.1 (Or.inl rfl) "n" rfl (by decide),
   (parseInput_content_amended _).2.2 (Or.inl rfl) (Or.inl rfl)⟩

/-- The input refuting C7 as stated: a plain write operation. -/
def cexInputWrite : ClaudeCodeHookInput :=
  { tool_name := "Write",
    tool_input := { file_path := some "x.ts", content := some "c" } }

/-- C7 counterexample: for a write-style operation the built context still
carries an `oldContent` value (the empty string) — `parseInput` assigns
`old_string || ''` unconditionally, so "for a write-style operation the
context carries no oldContent value" fails. -/
theorem parseInput_oldContent_on_write :
    (parseInput cexInputWrite).operation = Operation.write ∧
    (parseInput cexInputWrite).oldContent = some "" ∧
    (parseInput cexInputWrite).oldContent ≠ none := by
  refine ⟨rfl, rfl, by decide⟩

/-- C7 (amended): `oldContent` is always set, for edit- and write-style
operations alike: it equals the payload's "prior text" field when that field
is present and non-empty, and the empty string otherwise. -/
theorem parseInput_oldContent_amended (input : ClaudeCodeHookInput) :
    (parseInput input).oldContent ≠ none ∧
    (∀ s, input.tool_input.old_string = some s → s ≠ "" →
      (parseInput input).oldContent = some s) ∧
    ((input.tool_input.old_string = none ∨ input.tool_input.old_string = some "") →
      (parseInput input).oldContent = some "") := by
  refine ⟨?_, ?_, ?_⟩
  · simp [parseInput]
  · intro s hs hne
    simp [parseInput, jsOrS, hs, hne]
  · intro ho
    rcases ho with ho | ho <;> simp [parseInput, jsOrS, ho]

/-- Witness for the amended C7 at concrete inputs. -/
theorem parseInput_oldContent_amended_witness :
    (parseInput { tool_name := "Edit", tool_input := { old_string := some "old" } }).oldContent = some "old" ∧
    (parseInput { tool_name := "Write", tool_input := {} }).oldContent = some "" :=
  ⟨(parseInput_oldContent_amended _).2.1 "old" rfl (by decide),
   (parseInput_oldContent_amended _).2.2 (Or.inl rfl)⟩

/-! ## Claim about the error renderer -/

/-- Every member of a joined list occurs in the joined string, between some
(possibly empty) pieces. -/
theorem joinSep_mem_split (sep : String) (e : String) :
    ∀ l : List String, e ∈ l → ∃ p q, joinSep sep l = p ++ e ++ q := by
  intro l
  induction l with
  | nil => intro he; cases he
  | cons a rest ih =>
    intro he
    cases rest with
    | nil =>
      rcases List.mem_singleton.mp he with rfl
      exact ⟨"", "", by simp [joinSep, String.empty_append, String.append_empty]⟩
    | cons b rest2 =>
      rcases List.mem_cons.mp he with rfl | he2
      · refine ⟨"", sep ++ joinSep sep (b :: rest2), ?_⟩
        simp only [joinSep, String.empty_append, String.append_assoc]
      · rcases ih he2 with ⟨p, q, hpq⟩
        refine ⟨a ++ sep ++ p, q, ?_⟩
        simp only [joinSep, hpq, String.append_assoc]

/-- C8: `formatErrors` renders the empty aggregate to the empty string; a
non-empty aggregate renders to the shared header followed by the
diagnostics joined with a blank line, so every diagnostic occurs as a
substring after the header. -/
theorem formatErrors_spec (errors : List String) :
    (errors = [] → formatErrors errors = "") ∧
    (errors ≠ [] →
      formatErrors errors = validationHeader ++ joinSep "\n\n" errors ∧
      ∀ e ∈ errors, ∃ p q,
        formatErrors errors = validationHeader ++ (p ++ e ++ q)) := by
  constructor
  · intro h
    simp [formatErrors, h]
  · intro h
    have hlen : errors.length ≠ 0 := by
      simpa [List.length_eq_zero] using h
    constructor
    · simp [formatErrors, hlen, List.map_id']
    · intro e he
      rcases joinSep_mem_split "\n\n" e errors he with ⟨p, q, hpq⟩
      exact ⟨p, q, by simp [formatErrors, hlen, List.map_id', hpq]⟩

/-- Witness for C8 at concrete aggregates. -/
theorem formatErrors_spec_witness :
    formatErrors [] = "" ∧
    (∃ p q, formatErrors ["a", "b"] = validationHeader ++ (p ++ "a" ++ q)) ∧
    (∃ p q, formatErrors ["a", "b"] = validationHeader ++ (p ++ "b" ++ q)) :=
  ⟨(formatErrors_spec []).1 rfl,
   ((formatErrors_spec ["a", "b"]).2 (by decide)).2 "a" (by decide),
   ((formatErrors_spec ["a", "b"]).2 (by decide)).2 "b" (by decide)⟩

/-! ## Claims about rule discovery -/

/-- Appending file lists composes the file loop: the loop over `l1 ++ l2`
first processes `l1`, then continues over `l2` from the accumulated
state. -/
theorem loadFiles_append (l1 l2 : List ModuleLoad) :
    ∀ acc warns, loadFiles acc warns (l1 ++ l2) =
      loadFiles (loadFiles acc warns l1).1 (loadFiles acc warns l1).2 l2 := by
  induction l1 with
  | nil => intro acc warns; rfl
  | cons f rest ih =>
    intro acc warns
    cases f with
    | error e => simpa [loadFiles] using ih acc (warns ++ [e])
    | ok exports => simpa [loadFiles] using ih (collectExports acc exports) warns

/-- The collected-rules component of the file loop does not depend on the
warnings accumulated so far. -/
theorem loadFiles_fst_warns_irrelevant (l : List ModuleLoad) :
    ∀ acc warns warns2, (loadFiles acc warns l).1 = (loadFiles acc warns2 l).1 := by
  induction l with
  | nil => intro acc warns warns2; rfl
  | cons f rest ih =>
    intro acc warns warns2
    cases f with
    | error e => simpa [loadFiles] using ih acc (warns ++ [e]) (warns2 ++ [e])
    | ok exports => simpa [loadFiles] using ih (collectExports acc exports) warns warns2

/-- The file loop only appends to the warning log. -/
theorem loadFiles_warns_mono (l : List ModuleLoad) :
    ∀ acc warns, ∃ w, (loadFiles acc warns l).2 = warns ++ w := by
  induction l with
  | nil => intro acc warns; exact ⟨[], by simp [loadFiles]⟩
  | cons f rest ih =>
    intro acc warns
    cases f with
    | error e =>
      rcases ih acc (warns ++ [e]) with ⟨w, hw⟩
      exact ⟨[e] ++ w, by simp [loadFiles, hw]⟩
    | ok exports =>
      rcases ih (collectExports acc exports) warns with ⟨w, hw⟩
      exact ⟨w, by simp [loadFiles, hw]⟩

/-- C4: `loadRules` never raises.  When the directory enumeration itself
fails, it returns the empty sequence; when one candidate file fails to
load, a warning carrying that failure is recorded and the rules collected
are exactly those of the remaining files.  (The Lean embedding is total by
construction, mirroring that the outer and inner catches absorb every
throw.) -/
theorem loadRules_spec :
    (∀ e : Err, loadRules (Except.error e) = []) ∧
    (∀ (pre post : List ModuleLoad) (e : Err),
      loadRules (Except.ok (pre ++ Except.error e :: post)) =
        loadRules (Except.ok (pre ++ post)) ∧
      e ∈ (loadFiles [] [] (pre ++ Except.error e :: post)).2) := by
  constructor
  · intro e
    rfl
  · intro pre post e
    constructor
    · show (loadFiles [] [] (pre ++ Except.error e :: post)).1 =
        (loadFiles [] [] (pre ++ post)).1
      rw [loadFiles_append pre (Except.error e :: post),
        loadFiles_append pre post]
      simp only [loadFiles]
      exact loadFiles_fst_warns_irrelevant post _ _ _
    · rw [loadFiles_append pre (Except.error e :: post)]
      simp only [loadFiles]
      rcases loadFiles_warns_mono post (loadFiles [] [] pre).1
        ((loadFiles [] [] pre).2 ++ [e]) with ⟨w, hw⟩
      rw [hw]
      simp

/-- The rule shape in the spec's words: "an object with a string `name`, a
string `description`, a function `shouldRun`, and a function `validate`". -/
def SpecRuleShape (v : JsVal) : Prop :=
  (∃ fields, v = JsVal.objV fields) ∧
  (∃ s, jsGet v "name" = JsVal.strV s) ∧
  (∃ s, jsGet v "description" = JsVal.strV s) ∧
  (∃ n, jsGet v "shouldRun" = JsVal.funV n) ∧
  (∃ n, jsGet v "validate" = JsVal.funV n)

/-- `typeof u === 'string'` holds exactly on string values. -/
theorem jsTypeof_eq_string (u : JsVal) :
    jsTypeof u = "string" ↔ ∃ s, u = JsVal.strV s := by
  cases u <;> simp [jsTypeof]

/-- `typeof u === 'function'` holds exactly on function values. -/
theorem jsTypeof_eq_function (u : JsVal) :
    jsTypeof u = "function" ↔ ∃ n, u = JsVal.funV n := by
  cases u <;> simp [jsTypeof]

/-- A truthy value of object type is exactly a plain (non-null) object. -/
theorem jsTruthy_object (u : JsVal) :
    (jsTruthy u = true ∧ jsTypeof u = "object") ↔ ∃ fields, u = JsVal.objV fields := by
  cases u <;> simp [jsTruthy, jsTypeof]

/-- An export missing the `validate` member, as in the spec's
`not-a-rule.ts` example. -/
def exportMissingValidate : JsVal :=
  JsVal.objV [("name", JsVal.strV "not-a-rule"),
    ("description", JsVal.strV "missing validate"),
    ("shouldRun", JsVal.funV 0)]

/-- C5: the structural check of discovery accepts exactly the exported
values that are objects with string `name`, string `description`, function
`shouldRun` and function `validate`; the export loop collects exactly the
passing exports in order; a test/spec file is not even a discovery
candidate; and an object missing `validate` is rejected. -/
theorem isValidationRule_spec :
    (∀ v, isValidationRule v = true ↔ SpecRuleShape v) ∧
    (∀ exports acc, collectExports acc exports =
      acc ++ exports.filter isValidationRule) ∧
    isCandidateFile "rule-a.ts" = true ∧
    isCandidateFile "rule-a.test.ts" = false ∧
    isCandidateFile "rule-a.spec.ts" = false ∧
    isValidationRule exportMissingValidate = false := by
  refine ⟨?_, ?_, by decide, by decide, by decide, by rfl⟩
  · intro v
    rw [isValidationRule, SpecRuleShape]
    rw [← jsTypeof_eq_string (jsGet v "name"), ← jsTypeof_eq_string (jsGet v "description"),
      ← jsTypeof_eq_function (jsGet v "shouldRun"), ← jsTypeof_eq_function (jsGet v "validate"),
      ← jsTruthy_object v]
    simp [Bool.and_eq_true, decide_eq_true_iff, and_assoc]
  · intro exports
    induction exports with
    | nil => intro acc; simp [collectExports]
    | cons e rest ih =>
      intro acc
      by_cases he : isValidationRule e = true
      · have h1 : collectExports acc (e :: rest) = collectExports (acc ++ [e]) rest := by
          simp [collectExports, he]
        rw [h1, ih (acc ++ [e])]
        simp [List.filter_cons, he]
      · have hf : isValidationRule e = false := Bool.eq_false_iff.mpr he
        have h1 : collectExports acc (e :: rest) = collectExports acc rest := by
          simp [collectExports, hf]
        rw [h1, ih acc]
        simp [List.filter_cons, hf]

/-! ## Claims about the validation engine -/

/-- The effective contribution of one rule inside the rule loop: nothing
when its gate is closed, otherwise the resolved value of its channel
(nothing when the channel resolves to `undefined` or to the empty
sequence — appending the empty sequence is also nothing). -/
def contribution (bus : HookBus) (ctx : ValidationContext) (r : VRule) :
    List String :=
  if r.shouldRun ctx then
    match bus.callHook ("validate:" ++ r.name) ctx with
    | some res => res
    | none => []
  else []

/-- The rule loop aggregates exactly the per-rule contributions, in rule
order. -/
theorem runRules_eq_flatten (bus : HookBus) (ctx : ValidationContext) :
    ∀ (rs : List VRule) (errs : List String),
      runRules bus ctx rs errs = errs ++ (rs.map (contribution bus ctx)).flatten := by
  intro rs
  induction rs with
  | nil => intro errs; simp [runRules]
  | cons r rest ih =>
    intro errs
    by_cases hs : r.shouldRun ctx
    · rcases hck : bus.callHook ("validate:" ++ r.name) ctx with _ | res
      · have : runRules bus ctx (r :: rest) errs = runRules bus ctx rest errs := by
          simp [runRules, hs, hck]
        rw [this, ih]
        simp [contribution, hs, hck]
      · by_cases hres : 0 < res.length
        · have : runRules bus ctx (r :: rest) errs = runRules bus ctx rest (errs ++ res) := by
            simp [runRules, hs, hck, hres]
          rw [this, ih]
          simp [contribution, hs, hck]
        · have hnil : res = [] := by
            simpa [List.length_eq_zero] using Nat.le_zero.mp (Nat.not_lt.mp hres)
          have : runRules bus ctx (r :: rest) errs = runRules bus ctx rest errs := by
            simp [runRules, hs, hck, hres]
          rw [this, ih]
          simp [contribution, hs, hck, hnil]
    · have : runRules bus ctx (r :: rest) errs = runRules bus ctx rest errs := by
        simp [runRules, hs]
      rw [this, ih]
      simp [contribution, hs]

/-- A closed gate contributes nothing. -/
theorem contribution_skipped (bus : HookBus) (ctx : ValidationContext)
    (r : VRule) (h : r.shouldRun ctx = false) : contribution bus ctx r = [] := by
  simp [contribution, h]

/-- C1: every result of a validation call has `valid = true` exactly when
its `errors` sequence is empty; and when no registered rule's `shouldRun`
holds on the context, the call returns `valid = true` with `errors = []`. -/
theorem validate_valid_iff (v : Validator) (ctx : ValidationContext) :
    ((validateCtx v ctx).valid = true ↔ (validateCtx v ctx).errors = []) ∧
    ((∀ r ∈ v.rules, r.shouldRun ctx = false) →
      (validateCtx v ctx).valid = true ∧ (validateCtx v ctx).errors = []) := by
  constructor
  · simp [validateCtx, List.length_eq_zero]
  · intro hall
    have hrun : runRules v.bus ctx v.rules [] = [] := by
      rw [runRules_eq_flatten]
      simp only [List.nil_append, List.flatten_eq_nil_iff]
      intro l hl
      rcases List.mem_map.mp hl with ⟨r, hr, rfl⟩
      exact contribution_skipped v.bus ctx r (hall r hr)
    simp [validateCtx, hrun]

/-- A fixed concrete context for the engine witnesses. -/
def ctx0 : ValidationContext :=
  { toolName := "Write", filePath := "x.ts", content := "",
    oldContent := none, operation := Operation.write }

/-- A rule that is never applicable. -/
def ruleNever : VRule :=
  { name := "never-rule", description := "never applicable",
    shouldRun := fun _ => false, validate := fun _ => ["boom"] }

/-- Witness for C1 on an engine whose single registered rule is never
applicable. -/
theorem validate_valid_iff_witness :
    (validateCtx (mkValidator [ruleNever]) ctx0).valid = true ∧
    (validateCtx (mkValidator [ruleNever]) ctx0).errors = [] :=
  (validate_valid_iff (mkValidator [ruleNever]) ctx0).2
    (fun r hr => by
      have hr2 : r = ruleNever := by
        simpa [mkValidator, registerRule, Validator.empty] using hr
      rw [hr2]
      rfl)

/-- The channel-name template is injective in the rule name. -/
theorem channel_name_inj (a b : String) :
    ("validate:" ++ a = "validate:" ++ b) ↔ a = b := by
  constructor
  · intro h
    have hd : ("validate:" ++ a).data = ("validate:" ++ b).data :=
      congrArg String.data h
    rw [String.data_append, String.data_append] at hd
    exact String.ext (List.append_cancel_left hd)
  · intro h
    rw [h]

/-- Registering a rule list onto an engine appends the rules and their
channel bindings. -/
theorem foldl_registerRule (rules : List VRule) :
    ∀ v : Validator, rules.foldl registerRule v =
      ⟨v.rules ++ rules,
        ⟨v.bus.hooks ++ rules.map (fun r => ("validate:" ++ r.name, r.validate))⟩⟩ := by
  induction rules with
  | nil =>
    intro v
    simp
  | cons r rest ih =>
    intro v
    rw [List.foldl_cons, ih]
    simp [registerRule, HookBus.hook]

/-- The engine built from a rule list: the owned rule sequence is the list,
and the bus carries one `validate:<name>` binding per rule, in registration
order. -/
theorem mkValidator_eq (rules : List VRule) :
    mkValidator rules =
      ⟨rules, ⟨rules.map (fun r => ("validate:" ++ r.name, r.validate))⟩⟩ := by
  rw [mkValidator, foldl_registerRule]
  rfl

/-- On the engine's bus, the handlers of the channel named after `name` are
the `validate` members of the registered rules bearing that name, in
registration order. -/
theorem handlersFor_mkValidator (rules : List VRule) (name : String) :
    (mkValidator rules).bus.handlersFor ("validate:" ++ name) =
      (rules.filter (fun r => r.name = name)).map VRule.validate := by
  rw [mkValidator_eq]
  show List.filterMap _ _ = _
  induction rules with
  | nil => rfl
  | cons r rest ih =>
    by_cases h : r.name = name
    · simp only [List.map_cons, List.filterMap_cons, List.filter_cons]
      rw [if_pos (by rw [channel_name_inj]; exact h), if_pos (by simp [h])]
      rw [List.map_cons]
      exact congrArg (VRule.validate r :: ·) ih
    · simp only [List.map_cons, List.filterMap_cons, List.filter_cons]
      rw [if_neg (by rw [channel_name_inj]; exact h), if_neg (by simp [h])]
      exact ih

/-- When no rule after `A` shares `A`'s name, the channel named after `A`
resolves to `A`'s own diagnostics (the serial caller resolves to the last
bound handler). -/
theorem callHook_mkValidator_last (pre post : List VRule) (A : VRule)
    (ctx : ValidationContext) (hpost : ∀ r ∈ post, r.name ≠ A.name) :
    (mkValidator (pre ++ A :: post)).bus.callHook ("validate:" ++ A.name) ctx =
      some (A.validate ctx) := by
  rw [HookBus.callHook, HookBus.fireAll, handlersFor_mkValidator]
  have hpost0 : post.filter (fun r => r.name = A.name) = [] := by
    rw [List.filter_eq_nil_iff]
    intro r hr
    simp [hpost r hr]
  rw [List.filter_append, List.filter_cons, if_pos (by simp), hpost0]
  rw [List.map_append, List.map_append, List.map_cons, List.map_cons,
    List.map_nil, List.map_nil]
  exact List.getLast?_concat _

/-- The single-step fact behind the ordering claim: an applicable rule that
is the last registered bearer of its name contributes its own diagnostics. -/
theorem contribution_last_of_name (pre post : List VRule) (A : VRule)
    (ctx : ValidationContext) (hpost : ∀ r ∈ post, r.name ≠ A.name)
    (hA : A.shouldRun ctx = true) :
    contribution (mkValidator (pre ++ A :: post)).bus ctx A = A.validate ctx := by
  rw [contribution, if_pos hA, callHook_mkValidator_last pre post A ctx hpost]

/-- Flattening a mapped contribution list splits around two distinguished
rules. -/
theorem flatten_map_split (c : VRule → List String) (pre mid post : List VRule)
    (A B : VRule) :
    ((pre ++ A :: (mid ++ B :: post)).map c).flatten =
      (pre.map c).flatten ++
        (c A ++ ((mid.map c).flatten ++ (c B ++ (post.map c).flatten))) := by
  simp

/-- The aggregate of a validation call is the flattened contribution
sequence of the registered rules, in registration order. -/
theorem validateCtx_errors_eq (rules : List VRule) (ctx : ValidationContext) :
    (validateCtx (mkValidator rules) ctx).errors =
      (rules.map (contribution (mkValidator rules).bus ctx)).flatten := by
  have hrl : (mkValidator rules).rules = rules := by rw [mkValidator_eq]
  show runRules _ ctx (mkValidator rules).rules [] = _
  rw [hrl, runRules_eq_flatten]
  simp

/-- Two rules sharing one name: `A` emits `"diagA"`, `B` emits `"diagB"`. -/
def ruleDupA : VRule :=
  { name := "dup", description := "first dup",
    shouldRun := fun _ => true, validate := fun _ => ["diagA"] }

/-- See `ruleDupA`. -/
def ruleDupB : VRule :=
  { name := "dup", description := "second dup",
    shouldRun := fun _ => true, validate := fun _ => ["diagB"] }

/-- C2 counterexample: rules `A` then `B`, both applicable and both
emitting one diagnostic, registered on one engine — but sharing the name
`"dup"`.  The shared channel resolves to the last bound handler, so the
aggregate is `["diagB", "diagB"]` and `A`'s diagnostic `"diagA"` never
appears, refuting "the result's errors sequence contains all of A's
diagnostics before any of B's" for this pair. -/
theorem validate_order_counterexample :
    ruleDupA.shouldRun ctx0 = true ∧ ruleDupB.shouldRun ctx0 = true ∧
    ruleDupA.validate ctx0 = ["diagA"] ∧ ruleDupB.validate ctx0 = ["diagB"] ∧
    (validateCtx (mkValidator [ruleDupA, ruleDupB]) ctx0).errors =
      ["diagB", "diagB"] ∧
    "diagA" ∉ (validateCtx (mkValidator [ruleDupA, ruleDupB]) ctx0).errors := by
  refine ⟨rfl, rfl, rfl, rfl, by decide, by decide⟩

/-- C2 (amended): for rules `A` before `B` on one engine, both applicable,
the aggregate lists `A`'s diagnostics (as a contiguous block, in emission
order) before `B`'s, PROVIDED each of `A` and `B` is the last registered
rule bearing its name; and rules whose `shouldRun` is false contribute
nothing — when every other rule is inapplicable the aggregate is exactly
`A`'s diagnostics followed by `B`'s. -/
theorem validate_order_amended (pre mid post : List VRule) (A B : VRule)
    (ctx : ValidationContext)
    (hAlast : ∀ r ∈ mid ++ B :: post, r.name ≠ A.name)
    (hBlast : ∀ r ∈ post, r.name ≠ B.name)
    (hA : A.shouldRun ctx = true) (hB : B.shouldRun ctx = true) :
    (∃ w x y,
      (validateCtx (mkValidator (pre ++ A :: (mid ++ B :: post))) ctx).errors =
        w ++ A.validate ctx ++ x ++ B.validate ctx ++ y) ∧
    ((∀ r ∈ pre ++ (mid ++ post), r.shouldRun ctx = false) →
      (validateCtx (mkValidator (pre ++ A :: (mid ++ B :: post))) ctx).errors =
        A.validate ctx ++ B.validate ctx) := by
  have hcA : contribution (mkValidator (pre ++ A :: (mid ++ B :: post))).bus ctx A =
      A.validate ctx :=
    contribution_last_of_name pre (mid ++ B :: post) A ctx hAlast hA
  have hsp : pre ++ A :: (mid ++ B :: post) = (pre ++ A :: mid) ++ B :: post := by
    simp
  have hcB : contribution (mkValidator (pre ++ A :: (mid ++ B :: post))).bus ctx B =
      B.validate ctx := by
    rw [hsp]
    exact contribution_last_of_name (pre ++ A :: mid) post B ctx hBlast hB
  constructor
  · refine ⟨(pre.map (contribution (mkValidator (pre ++ A :: (mid ++ B :: post))).bus ctx)).flatten,
      (mid.map (contribution (mkValidator (pre ++ A :: (mid ++ B :: post))).bus ctx)).flatten,
      (post.map (contribution (mkValidator (pre ++ A :: (mid ++ B :: post))).bus ctx)).flatten, ?_⟩
    rw [validateCtx_errors_eq, flatten_map_split, hcA, hcB]
    simp [List.append_assoc]
  · intro hskip
    have hz : ∀ r ∈ pre ++ (mid ++ post),
        contribution (mkValidator (pre ++ A :: (mid ++ B :: post))).bus ctx r = [] :=
      fun r hr => contribution_skipped _ ctx r (hskip r hr)
    have hzpre : (pre.map (contribution (mkValidator (pre ++ A :: (mid ++ B :: post))).bus ctx)).flatten = [] := by
      rw [List.flatten_eq_nil_iff]
      intro l hl
      rcases List.mem_map.mp hl with ⟨r, hr, rfl⟩
      exact hz r (List.mem_append.mpr (Or.inl hr))
    have hzmid : (mid.map (contribution (mkValidator (pre ++ A :: (mid ++ B :: post))).bus ctx)).flatten = [] := by
      rw [List.flatten_eq_nil_iff]
      intro l hl
      rcases List.mem_map.mp hl with ⟨r, hr, rfl⟩
      exact hz r (List.mem_append.mpr (Or.inr (List.mem_append.mpr (Or.inl hr))))
    have hzpost : (post.map (contribution (mkValidator (pre ++ A :: (mid ++ B :: post))).bus ctx)).flatten = [] := by
      rw [List.flatten_eq_nil_iff]
      intro l hl
      rcases List.mem_map.mp hl with ⟨r, hr, rfl⟩
      exact hz r (List.mem_append.mpr (Or.inr (List.mem_append.mpr (Or.inr hr))))
    rw [validateCtx_errors_eq, flatten_map_split, hcA, hcB, hzpre, hzmid, hzpost]
    simp

/-- Two distinctly named applicable rules for the ordering witness. -/
def ruleAlpha : VRule :=
  { name := "alpha", description := "first",
    shouldRun := fun _ => true, validate := fun _ => ["a1", "a2"] }

/-- See `ruleAlpha`. -/
def ruleBeta : VRule :=
  { name := "beta", description := "second",
    shouldRun := fun _ => true, validate := fun _ => ["b1"] }

/-- Witness for the amended C2 on two distinctly named rules. -/
theorem validate_order_amended_witness :
    ∃ w x y, (validateCtx (mkValidator [ruleAlpha, ruleBeta]) ctx0).errors =
      w ++ ruleAlpha.validate ctx0 ++ x ++ ruleBeta.validate ctx0 ++ y :=
  (validate_order_amended [] [] [] ruleAlpha ruleBeta ctx0
    (fun r hr => by
      have : r = ruleBeta := by simpa using hr
      rw [this]
      decide)
    (fun r hr => by simp at hr)
    rfl rfl).1

/-- C9: registering two rules with the same name on one engine is
permitted — both registrations take effect, neither fails — and the shared
`validate:<name>` channel then carries both handlers: firing it invokes
both, sequentially in registration order (the firing sequence lists `A`'s
resolved value, then `B`'s; the serial caller awaits each handler before
invoking the next). -/
theorem registerRule_duplicate_names (v : Validator) (A B : VRule)
    (ctx : ValidationContext) (hname : B.name = A.name) :
    (registerRule (registerRule v A) B).rules = v.rules ++ [A, B] ∧
    HookBus.fireAll (registerRule (registerRule v A) B).bus
        ("validate:" ++ A.name) ctx =
      HookBus.fireAll v.bus ("validate:" ++ A.name) ctx ++
        [A.validate ctx, B.validate ctx] := by
  constructor
  · simp [registerRule]
  · simp [registerRule, HookBus.hook, HookBus.fireAll, HookBus.handlersFor,
      List.filterMap_append, hname]

/-- Witness for C9: registering the two `"dup"`-named rules on a fresh
engine keeps both, and firing their shared channel invokes both handlers in
registration order. -/
theorem registerRule_duplicate_names_witness :
    (registerRule (registerRule Validator.empty ruleDupA) ruleDupB).rules =
      [ruleDupA, ruleDupB] ∧
    HookBus.fireAll (registerRule (registerRule Validator.empty ruleDupA) ruleDupB).bus
        ("validate:" ++ ruleDupA.name) ctx0 = [["diagA"], ["diagB"]] :=
  registerRule_duplicate_names Validator.empty ruleDupA ruleDupB ctx0 rfl

/-- Registering a throwing-rule list appends the rules and their channel
bindings (analogue of `foldl_registerRule`). -/
theorem foldl_registerRuleE (rules : List VRuleE) :
    ∀ v : ValidatorE, rules.foldl registerRuleE v =
      ⟨v.rules ++ rules,
        ⟨v.bus.hooks ++ rules.map (fun r => ("validate:" ++ r.name, r.validate))⟩⟩ := by
  induction rules with
  | nil =>
    intro v
    simp
  | cons r rest ih =>
    intro v
    rw [List.foldl_cons, ih]
    simp [registerRuleE]

/-- The throwing-rule engine built from a rule list. -/
theorem mkValidatorE_eq (rules : List VRuleE) :
    mkValidatorE rules =
      ⟨rules, ⟨rules.map (fun r => ("validate:" ++ r.name, r.validate))⟩⟩ := by
  rw [mkValidatorE, foldl_registerRuleE]
  rfl

/-- Channel handlers on the throwing-rule engine's bus: the `validate`
members of the same-named rules, in registration order. -/
theorem handlersForE_mkValidatorE (rules : List VRuleE) (name : String) :
    (mkValidatorE rules).bus.handlersFor ("validate:" ++ name) =
      (rules.filter (fun r => r.name = name)).map VRuleE.validate := by
  rw [mkValidatorE_eq]
  show List.filterMap _ _ = _
  induction rules with
  | nil => rfl
  | cons r rest ih =>
    by_cases h : r.name = name
    · simp only [List.map_cons, List.filterMap_cons, List.filter_cons]
      rw [if_pos (by rw [channel_name_inj]; exact h), if_pos (by simp [h])]
      rw [List.map_cons]
      exact congrArg (VRuleE.validate r :: ·) ih
    · simp only [List.map_cons, List.filterMap_cons, List.filter_cons]
      rw [if_neg (by rw [channel_name_inj]; exact h), if_neg (by simp [h])]
      exact ih

/-- When no rule before `r` shares `r`'s name and `r.validate` throws, the
serial chain of `r`'s channel rejects with `r`'s exception: `r.validate` is
the first handler invoked, and its rejection aborts the chain. -/
theorem callHookE_first_error (pre post : List VRuleE) (r : VRuleE)
    (ctx : ValidationContext) (e : Err)
    (hpre : ∀ p ∈ pre, p.name ≠ r.name) (hval : r.validate ctx = Except.error e) :
    (mkValidatorE (pre ++ r :: post)).bus.callHook ("validate:" ++ r.name) ctx =
      Except.error e := by
  rw [HookBusE.callHook, handlersForE_mkValidatorE]
  have hpre0 : pre.filter (fun p => p.name = r.name) = [] := by
    rw [List.filter_eq_nil_iff]
    intro p hp
    simp [hpre p hp]
  rw [List.filter_append, hpre0, List.filter_cons, if_pos (by simp)]
  rw [List.nil_append, List.map_cons]
  rw [serialCallE, hval]

/-- Processing an initial segment that succeeds continues the loop over the
remaining rules from the accumulated aggregate. -/
theorem runRulesE_append_ok (bus : HookBusE) (ctx : ValidationContext)
    (l1 : List VRuleE) :
    ∀ (l2 : List VRuleE) (errs errs2 : List String),
      runRulesE bus ctx l1 errs = Except.ok errs2 →
      runRulesE bus ctx (l1 ++ l2) errs = runRulesE bus ctx l2 errs2 := by
  induction l1 with
  | nil =>
    intro l2 errs errs2 h
    have : errs = errs2 := by
      simpa [runRulesE] using h
    rw [List.nil_append, this]
  | cons r rest ih =>
    intro l2 errs errs2 h
    rcases hsr : r.shouldRun ctx with e | b
    · rw [runRulesE, hsr] at h
      cases h
    · cases b with
      | false =>
        rw [runRulesE, hsr] at h
        simp only [Bool.false_eq_true, if_false] at h
        rw [List.cons_append, runRulesE, hsr]
        simp only [Bool.false_eq_true, if_false]
        exact ih l2 errs errs2 h
      | true =>
        rw [runRulesE, hsr] at h
        simp only [if_true] at h
        rw [List.cons_append, runRulesE, hsr]
        simp only [if_true]
        rcases hck : bus.callHook ("validate:" ++ r.name) ctx with e | res
        · rw [hck] at h
          cases h
        · rw [hck] at h
          cases res with
          | none => exact ih l2 errs errs2 h
          | some out =>
            by_cases hout : 0 < out.length
            · simp only [hout, if_true] at h ⊢
              exact ih l2 (errs ++ out) errs2 h
            · simp only [hout, if_false] at h ⊢
              exact ih l2 errs errs2 h

/-- C3: during a validation call, once the loop reaches an applicable rule
whose check throws — or a rule whose gate itself throws — the exception is
not caught: the whole `validate` call rejects and no `ValidationResult`
(in particular no passing one) is returned; and when no registered rule
bears the reserved name `"before"` (whose handler would be awaited on the
`validate:before` channel ahead of the loop and could reject first), the
call rejects with exactly that rule's exception.  (For the validate-throw
case the rule is taken to be the first registered bearer of its name, so
its own handler is the one whose rejection is observed.) -/
theorem validate_propagates_exception (pre post : List VRuleE) (r : VRuleE)
    (ctx : ValidationContext) (errs : List String) (e : Err)
    (hpre : runRulesE (mkValidatorE (pre ++ r :: post)).bus ctx pre [] =
      Except.ok errs)
    (hcase : r.shouldRun ctx = Except.error e ∨
      (r.shouldRun ctx = Except.ok true ∧ (∀ p ∈ pre, p.name ≠ r.name) ∧
        r.validate ctx = Except.error e)) :
    (∃ e0, validateE (mkValidatorE (pre ++ r :: post)) ctx = Except.error e0) ∧
    ((∀ p ∈ pre ++ r :: post, p.name ≠ "before") →
      validateE (mkValidatorE (pre ++ r :: post)) ctx = Except.error e) := by
  have hrl : (mkValidatorE (pre ++ r :: post)).rules = pre ++ r :: post := by
    rw [mkValidatorE_eq]
  have hloop : runRulesE (mkValidatorE (pre ++ r :: post)).bus ctx
      (pre ++ r :: post) [] = Except.error e := by
    rw [runRulesE_append_ok _ ctx pre (r :: post) [] errs hpre]
    rcases hcase with hthrow | ⟨hok, hfirst, hval⟩
    · rw [runRulesE, hthrow]
    · rw [runRulesE, hok]
      simp only [if_true]
      rw [callHookE_first_error pre post r ctx e hfirst hval]
  constructor
  · rcases hb : (mkValidatorE (pre ++ r :: post)).bus.callHook "validate:before" ctx
      with e0 | ob
    · exact ⟨e0, by rw [validateE, hb]⟩
    · exact ⟨e, by rw [validateE, hb, hrl, hloop]⟩
  · intro hnb
    have hch : ("validate:before" : String) = "validate:" ++ "before" := rfl
    have h1 : (mkValidatorE (pre ++ r :: post)).bus.handlersFor "validate:before" = [] := by
      rw [hch, handlersForE_mkValidatorE]
      have h0 : (pre ++ r :: post).filter (fun p => p.name = "before") = [] := by
        rw [List.filter_eq_nil_iff]
        intro p hp
        simp [hnb p hp]
      rw [h0, List.map_nil]
    have hb : (mkValidatorE (pre ++ r :: post)).bus.callHook "validate:before" ctx =
        Except.ok none := by
      rw [HookBusE.callHook, h1]
      rfl
    rw [validateE, hb, hrl, hloop]

/-- A rule whose check always throws. -/
def ruleThrow : VRuleE :=
  { name := "boom", description := "always throws",
    shouldRun := fun _ => Except.ok true,
    validate := fun _ => Except.error ⟨"kaput"⟩ }

/-- Witness for C3: an engine holding one applicable throwing rule rejects
the whole validation call with that rule's exception. -/
theorem validate_propagates_exception_witness :
    validateE (mkValidatorE [ruleThrow]) ctx0 = Except.error ⟨"kaput"⟩ :=
  (validate_propagates_exception [] [] ruleThrow ctx0 [] ⟨"kaput"⟩ rfl
    (Or.inr ⟨rfl, fun p hp => by simp at hp, rfl⟩)).2
    (fun p hp => by
      simp only [List.nil_append, List.mem_singleton] at hp
      rw [hp]
      decide)
